import Mathlib

/-!
Verification of the portfolio-optimization core
(src/portfolio_optimization.py, src/portfolio_utils.py).

Shallow embedding conventions:
* Python floats are modelled by ℚ where the code only adds, multiplies,
  divides and compares, and by ℝ where the code takes square roots or
  fractional powers (volatility, Sharpe ratio, CAGR).
* A pandas DataFrame of daily returns is a list of rows (dates in
  chronological order), each row a list of per-asset rationals in the
  order of the asset list.
* A Python dict of weights is an association list with lookup defaulting
  to 0.0, mirroring the code pattern weights.get(a, 0.0).
* The scipy SLSQP call inside the three optimizer functions is external
  library code; each optimizer is embedded as the function of the
  solver's returned iterate res.x that the code applies after the call.
* numpy's process-wide random generator is modelled by an explicit state
  of type ℕ threaded through generate_random_portfolios: np.random.seed
  overwrites the state as a function of the seed, and each sampling call
  reads the state, produces samples determined by it, and advances it.
-/

namespace Portfolio

/-- Embedding of the code pattern weight_dict.get(asset, 0.0): look an
asset up in an association list of weights with default 0. -/
def getW (wm : List (String × ℚ)) (a : String) : ℚ :=
  (wm.lookup a).getD 0

/-- Embedding of a pandas row normalization values / values.sum():
divide each entry of a row by the row sum. -/
def normalizeRow (v : List ℚ) : List ℚ :=
  v.map (fun x => x / v.sum)

/-- Embedding of np.clip(x, 0, 1) on one entry. -/
def clip01 (x : ℚ) : ℚ :=
  max 0 (min 1 x)

/-- Embedding of portfolio_optimization.py lines 51-52: the solver
result is clipped entrywise to [0,1] and renormalized to sum 1
(w_opt = np.clip(res.x, 0, 1); w_opt = w_opt / w_opt.sum()). -/
def postprocessWeights (solverX : List ℚ) : List ℚ :=
  normalizeRow (solverX.map clip01)

/-- Embedding of recommend_weights_for_target_return as a function of
the iterate res.x returned by the external scipy SLSQP call: the code
after the solver call clips res.x to [0,1] and renormalizes (lines
49-53). -/
def recommend_weights_for_target_return (solverX : List ℚ) : List ℚ :=
  postprocessWeights solverX

/-- Embedding of recommend_weights_for_max_vol as a function of the
iterate res.x returned by the external scipy SLSQP call: the code after
the solver call clips res.x to [0,1] and renormalizes (lines 95-99). -/
def recommend_weights_for_max_vol (solverX : List ℚ) : List ℚ :=
  postprocessWeights solverX

/-- Embedding of optimize_portfolio_sharpe as a function of the iterate
result.x returned by the external scipy SLSQP call: the code after the
solver call converts result.x to a dict unchanged (lines 258-264) with
no clipping and no renormalization. -/
def optimize_portfolio_sharpe (solverX : List ℚ) : List ℚ :=
  solverX

/-- Embedding of the cumulative product (1 + returns).cumprod() of
weights_over_time_buy_and_hold, row by row: acc carries the running
per-asset product, initially all ones. -/
def cumprodFrom (acc : List ℚ) : List (List ℚ) → List (List ℚ)
  | [] => []
  | r :: rs =>
    let a := List.zipWith (fun p x => p * (1 + x)) acc r
    a :: cumprodFrom a rs

/-- Embedding of the values table of weights_over_time_buy_and_hold
(line 116): values = cum.multiply(w0, axis=1), where
w0 = [init_weights.get(a, 0.0) for a in assets] (line 114) and
cum = (1 + returns).cumprod() (line 115). -/
def buyAndHoldValues (assets : List String) (wm : List (String × ℚ))
    (rows : List (List ℚ)) : List (List ℚ) :=
  let w0 := assets.map (getW wm)
  (cumprodFrom (List.replicate assets.length 1) rows).map
    (fun c => List.zipWith (· * ·) c w0)

/-- Embedding of weights_over_time_buy_and_hold (lines 102-118): the
weight row at each date is the values row divided by its sum
(weights_t = values.div(values.sum(axis=1), axis=0), line 117). -/
def weights_over_time_buy_and_hold (assets : List String)
    (wm : List (String × ℚ)) (rows : List (List ℚ)) : List (List ℚ) :=
  (buyAndHoldValues assets wm rows).map normalizeRow

/-- Embedding of one daily update of the rebalancing value vector
(line 152): values = values * (1 + row.values). -/
def stepRow (values row : List ℚ) : List ℚ :=
  List.zipWith (fun v r => v * (1 + r)) values row

/-- Half the L1 distance summand of the turnover formula (line 156):
the list of entrywise absolute differences, summed. -/
def l1dist (t p : List ℚ) : ℚ :=
  (List.zipWith (fun a b => abs (a - b)) t p).sum

/-- Embedding of the inner date loop of simulate_rebalancing
(lines 151-153): starting from the current value vector, walk the rows
of one rebalance period in date order, updating the values and
recording at each date the normalized weight row
(weights_df.loc[date, assets] = values / values.sum()).
Returns the final value vector and the recorded (date, weights) rows. -/
def runPeriodRows (values : List ℚ) :
    List (ℕ × List ℚ) → List ℚ × List (ℕ × List ℚ)
  | [] => (values, [])
  | (d, row) :: rest =>
    let v := stepRow values row
    let res := runPeriodRows v rest
    (res.1, (d, normalizeRow v) :: res.2)

/-- Embedding of the period loop of simulate_rebalancing (lines
148-159).  The pandas groupby(Grouper(freq)) partition of the date
index is external calendar code; its output, the chronological list of
periods (each a list of dated return rows, possibly empty), is the
argument.  Empty periods are skipped (lines 149-150).  For a non-empty
period the rows are walked, the pre-rebalance weights read back at the
period's last date equal the final value vector normalized, the
turnover 0.5 * sum |target - pre| is recorded keyed by that date
(lines 154-157), and the value vector is reset to
values.sum() * target (line 159). -/
def runPeriods (target : List ℚ) :
    List ℚ → List (List (ℕ × List ℚ)) → List (ℕ × List ℚ) × List (ℕ × ℚ)
  | _, [] => ([], [])
  | values, g :: gs =>
    if g.isEmpty then runPeriods target values gs
    else
      let res := runPeriodRows values g
      let pre := normalizeRow res.1
      let turnover := (1 / 2 : ℚ) * l1dist target pre
      let rest := runPeriods target (target.map (fun t => res.1.sum * t)) gs
      (res.2 ++ rest.1, ((g.getLastD (0, [])).1, turnover) :: rest.2)

/-- Embedding of simulate_rebalancing (lines 121-161): the target
vector is [target_weights.get(a, 0.0) for a in assets] (line 140), the
value vector starts as a copy of the target (line 144), and the periods
are processed in order.  Output: the dated weight rows and the dated
turnovers. -/
def simulate_rebalancing (assets : List String) (wm : List (String × ℚ))
    (periods : List (List (ℕ × List ℚ))) :
    List (ℕ × List ℚ) × List (ℕ × ℚ) :=
  let target := assets.map (getW wm)
  runPeriods target target periods

/-- Per-asset product of (1 + r) over the rows of one period, starting
from all ones: the factor by which each asset's value grows inside the
period.  Used to characterize the pre-rebalance weights. -/
def periodFactor (n : ℕ) (g : List (ℕ × List ℚ)) : List ℚ :=
  g.foldl (fun acc dr => stepRow acc dr.2) (List.replicate n 1)

/-- The pre-rebalance weights of one period, characterized locally:
the target vector scaled entrywise by the period's growth factors,
normalized.  The reset at each boundary makes this independent of
earlier periods. -/
def periodPreWeights (target : List ℚ) (g : List (ℕ × List ℚ)) : List ℚ :=
  normalizeRow (List.zipWith (· * ·) target (periodFactor target.length g))

section Drawdown

variable {K : Type} [LinearOrder K]

/-- Minimum of a list with a default for the empty list, embedding
pandas Series.min() on the drawdown series. -/
def minD (d : K) : List K → K
  | [] => d
  | x :: xs => xs.foldl min x

/-- Running maximum continuing from a previous maximum m. -/
def cummaxFrom (m : K) : List K → List K
  | [] => []
  | x :: xs => max m x :: cummaxFrom (max m x) xs

/-- Embedding of pandas Series.cummax(): the running maximum. -/
def cummax : List K → List K
  | [] => []
  | x :: xs => x :: cummaxFrom x xs

/-- Embedding of max_drawdown (portfolio_utils.py lines 228-241):
cum = values / values.iloc[0]; roll_max = cum.cummax();
dd = (cum / roll_max) - 1; return dd.min(). -/
def max_drawdown {F : Type} [LinearOrderedField F] (values : List F) : F :=
  let v0 := values.headD 1
  let cum := values.map (fun v => v / v0)
  let rollMax := cummax cum
  let dd := List.zipWith (fun c m => c / m - 1) cum rollMax
  minD 0 dd

end Drawdown

/-- TRADING_DAYS constant (portfolio_utils.py line 12). -/
def TRADING_DAYS : ℕ := 252

/-- Embedding of pandas Series.mean() over ℝ. -/
noncomputable def seriesMean (xs : List ℝ) : ℝ :=
  xs.sum / xs.length

/-- Embedding of pandas Series.var() with its default ddof = 1: the
sample variance with denominator length - 1. -/
noncomputable def sampleVar (xs : List ℝ) : ℝ :=
  (xs.map (fun x => (x - seriesMean xs) ^ 2)).sum / ((xs.length : ℝ) - 1)

/-- Embedding of annualized_vol (portfolio_utils.py lines 244-254):
returns.std() * np.sqrt(TRADING_DAYS), with std = sqrt of the sample
variance. -/
noncomputable def annualized_vol (xs : List ℝ) : ℝ :=
  Real.sqrt (sampleVar xs) * Real.sqrt TRADING_DAYS

/-- Embedding of sharpe_ratio (portfolio_utils.py lines 257-270):
ann_ret = returns.mean() * TRADING_DAYS; ann_vol = annualized_vol;
returns (ann_ret - risk_free) / ann_vol if ann_vol != 0 else np.nan.
The np.nan sentinel of the zero-volatility branch is modelled by
Option.none, the ordinary value by Option.some. -/
noncomputable def sharpe_ratio (xs : List ℝ) (riskFree : ℝ) : Option ℝ :=
  if annualized_vol xs = 0 then none
  else some ((seriesMean xs * TRADING_DAYS - riskFree) / annualized_vol xs)

/-- Embedding of cagr_from_value_series (portfolio_utils.py lines
213-225): days between first and last index entry, years =
days / 365.25, (last / first) ^ (1 / years) - 1.  The date index is a
list of day numbers (ℚ). -/
noncomputable def cagr_from_value_series (dates : List ℚ) (values : List ℝ) : ℝ :=
  let days : ℚ := dates.getLastD 0 - dates.headD 0
  let years : ℝ := (days : ℝ) / 365.25
  Real.rpow (values.getLastD 1 / values.headD 1) (1 / years) - 1

/-- Embedding of (1 + portfolio_rets).cumprod() * start_value for the
value series of portfolio_metrics_from_returns (line 285), with the
default start_value = 1 folded into the accumulator. -/
def cumprodSeries (acc : ℝ) : List ℝ → List ℝ
  | [] => []
  | r :: rs => acc * (1 + r) :: cumprodSeries (acc * (1 + r)) rs

/-- The metric bundle of portfolio_metrics_from_returns. -/
structure PortfolioMetrics where
  cagr : ℝ
  annualVol : ℝ
  sharpe : Option ℝ
  maxDrawdown : ℝ

/-- Embedding of portfolio_metrics_from_returns (portfolio_utils.py
lines 273-291) with the default start_value = 1 and risk_free = 0. -/
noncomputable def portfolio_metrics_from_returns (dates : List ℚ)
    (portRets : List ℝ) : PortfolioMetrics :=
  let values := cumprodSeries 1 portRets
  { cagr := cagr_from_value_series dates values
    annualVol := annualized_vol portRets
    sharpe := sharpe_ratio portRets 0
    maxDrawdown := max_drawdown values }

/-- Embedding of portfolio_return_series (portfolio_utils.py lines
120-134): the per-date dot product of the return row with the weight
vector, over the weight dict's assets, which in
generate_random_portfolios are exactly the columns of the returns
matrix in order. -/
def portfolio_return_series (rows : List (List ℚ)) (w : List ℚ) : List ℚ :=
  rows.map (fun r => (List.zipWith (· * ·) r w).sum)

/-- Modelled from numpy's documented semantics for the external
process-wide generator: np.random.seed(seed) overwrites the global
state with a deterministic function of the seed.  The abstract state is
ℕ and the seeded state is the seed itself. -/
def npSeedState (seed : ℕ) : ℕ := seed

/-- Modelled from numpy's documented semantics: one cell of a draw from
the flat Dirichlet distribution, a deterministic function of the
generator state.  Row j of state s has entries
(1 + (s + j + i) % n) / (n(n+1)/2), a positive vector summing to 1. -/
def simplexCell (n s i : ℕ) : ℚ :=
  ((1 + (s + i) % n : ℕ) : ℚ) / ((n * (n + 1) / 2 : ℕ) : ℚ)

/-- The k sampled weight vectors over n assets determined by generator
state s, in draw order. -/
def dirichletSamples (s n k : ℕ) : List (List ℚ) :=
  (List.range k).map (fun j => (List.range n).map (fun i => simplexCell n (s + j) i))

/-- Modelled from numpy's documented semantics: one call to
np.random.dirichlet(np.ones(n), size=k) against the process-wide
generator reads the current state s, returns the samples determined by
s, and advances the state. -/
def npDirichletCall (n k s : ℕ) : List (List ℚ) × ℕ :=
  (dirichletSamples s n k, s + 1)

/-- One output row of generate_random_portfolios: the four metrics, the
duplicated Return column (df["Return"] = df["CAGR"], line 200), and the
drawn weights (the w_<asset> columns). -/
structure SampleRecord where
  cagr : ℝ
  annualVol : ℝ
  sharpe : Option ℝ
  maxDrawdown : ℝ
  ret : ℝ
  weights : List ℚ

/-- Embedding of generate_random_portfolios (portfolio_optimization.py
lines 164-201) as a transformer of the process-wide generator state s0:
the body first executes np.random.seed(seed) (line 178), overwriting s0
with npSeedState seed, then draws the samples in one
np.random.dirichlet call (line 181), then scores each sample through
portfolio_return_series and portfolio_metrics_from_returns in draw
order (lines 184-197). -/
noncomputable def generate_random_portfolios (dates : List ℚ)
    (rows : List (List ℚ)) (nAssets numPortfolios seed s0 : ℕ) :
    List SampleRecord × ℕ :=
  let s1 := npSeedState seed
  let call := npDirichletCall nAssets numPortfolios s1
  let recs := call.1.map (fun w =>
    let portRets := portfolio_return_series rows w
    let mets := portfolio_metrics_from_returns dates (portRets.map (fun q => (q : ℝ)))
    { cagr := mets.cagr
      annualVol := mets.annualVol
      sharpe := mets.sharpe
      maxDrawdown := mets.maxDrawdown
      ret := mets.cagr
      weights := w : SampleRecord })
  (recs, call.2)

/-- Scale every weight of a weight dict by c (used to state scaling
invariance of the buy-and-hold path). -/
def scaleWeights (c : ℚ) (wm : List (String × ℚ)) : List (String × ℚ) :=
  wm.map (fun p => (p.1, c * p.2))

/-! ### Helper lemmas about row normalization -/

lemma sum_map_div (v : List ℚ) (S : ℚ) :
    (v.map (fun x => x / S)).sum = v.sum / S := by
  induction v with
  | nil => simp
  | cons x xs ih => simp [ih, add_div]

lemma normalizeRow_sum (v : List ℚ) (h : v.sum ≠ 0) :
    (normalizeRow v).sum = 1 := by
  simp [normalizeRow, sum_map_div, div_self h]

lemma sum_map_mul_left (c : ℚ) (v : List ℚ) :
    (v.map (fun x => c * x)).sum = c * v.sum := by
  induction v with
  | nil => simp
  | cons x xs ih => simp [ih, mul_add]

lemma normalizeRow_map_mul (c : ℚ) (hc : c ≠ 0) (v : List ℚ) :
    normalizeRow (v.map (fun x => c * x)) = normalizeRow v := by
  have hfun : (fun x => x / (c * v.sum)) ∘ (fun x => c * x) = fun x => x / v.sum := by
    funext x
    simp only [Function.comp_apply]
    exact mul_div_mul_left x v.sum hc
  simp only [normalizeRow, sum_map_mul_left, List.map_map, hfun]

lemma normalizeRow_length (v : List ℚ) : (normalizeRow v).length = v.length := by
  simp [normalizeRow]

lemma normalizeRow_nonneg (v : List ℚ) (hv : ∀ x ∈ v, 0 ≤ x) :
    ∀ y ∈ normalizeRow v, 0 ≤ y := by
  intro y hy
  simp only [normalizeRow, List.mem_map] at hy
  obtain ⟨x, hx, rfl⟩ := hy
  exact div_nonneg (hv x hx) (List.sum_nonneg hv)

/-! ### Helper lemmas about zipWith arithmetic -/

lemma zipWith_mul_map_left (c : ℚ) :
    ∀ (v w : List ℚ),
      List.zipWith (· * ·) v (w.map (fun x => c * x)) =
        (List.zipWith (· * ·) v w).map (fun x => c * x)
  | [], _ => by simp
  | _ :: _, [] => by simp
  | a :: v, b :: w => by
    simp only [List.map_cons, List.zipWith_cons_cons, zipWith_mul_map_left c v w,
      List.cons.injEq, and_true]
    ring

lemma stepRow_map_mul (c : ℚ) :
    ∀ (v row : List ℚ),
      stepRow (v.map (fun x => c * x)) row = (stepRow v row).map (fun x => c * x)
  | [], _ => by simp [stepRow]
  | _ :: _, [] => by simp [stepRow]
  | a :: v, r :: row => by
    simp only [stepRow, List.map_cons, List.zipWith_cons_cons, List.cons.injEq]
    exact ⟨by ring, stepRow_map_mul c v row⟩

lemma stepRow_zipWith_mul :
    ∀ (t f row : List ℚ),
      stepRow (List.zipWith (· * ·) t f) row =
        List.zipWith (· * ·) t (stepRow f row)
  | [], _, _ => by simp [stepRow]
  | _ :: _, [], _ => by simp [stepRow]
  | _ :: _, _ :: _, [] => by simp [stepRow]
  | a :: t, b :: f, r :: row => by
    simp only [stepRow, List.zipWith_cons_cons, List.cons.injEq]
    exact ⟨by ring, stepRow_zipWith_mul t f row⟩

lemma zipWith_mul_replicate_one :
    ∀ (t : List ℚ), List.zipWith (· * ·) t (List.replicate t.length 1) = t
  | [] => by simp
  | a :: t => by
    simp [List.replicate_succ, zipWith_mul_replicate_one t]

lemma foldl_stepRow_map_mul (c : ℚ) :
    ∀ (g : List (ℕ × List ℚ)) (v : List ℚ),
      g.foldl (fun acc dr => stepRow acc dr.2) (v.map (fun x => c * x)) =
        (g.foldl (fun acc dr => stepRow acc dr.2) v).map (fun x => c * x)
  | [], _ => rfl
  | dr :: g, v => by
    simp only [List.foldl_cons, stepRow_map_mul]
    exact foldl_stepRow_map_mul c g (stepRow v dr.2)

lemma foldl_stepRow_zipWith_mul :
    ∀ (g : List (ℕ × List ℚ)) (t f : List ℚ),
      g.foldl (fun acc dr => stepRow acc dr.2) (List.zipWith (· * ·) t f) =
        List.zipWith (· * ·) t (g.foldl (fun acc dr => stepRow acc dr.2) f)
  | [], _, _ => rfl
  | dr :: g, t, f => by
    simp only [List.foldl_cons, stepRow_zipWith_mul]
    exact foldl_stepRow_zipWith_mul g t (stepRow f dr.2)

lemma runPeriodRows_fst :
    ∀ (g : List (ℕ × List ℚ)) (v : List ℚ),
      (runPeriodRows v g).1 = g.foldl (fun acc dr => stepRow acc dr.2) v
  | [], _ => rfl
  | (d, row) :: g, v => by
    simp only [runPeriodRows, List.foldl_cons]
    exact runPeriodRows_fst g (stepRow v row)

lemma runPeriodRows_map_fst :
    ∀ (g : List (ℕ × List ℚ)) (v : List ℚ),
      (runPeriodRows v g).2.map Prod.fst = g.map Prod.fst
  | [], _ => rfl
  | (d, row) :: g, v => by
    simp only [runPeriodRows, List.map_cons, List.cons.injEq, true_and]
    exact runPeriodRows_map_fst g (stepRow v row)

/-! ### Helper lemmas about positivity and sums -/

lemma mem_stepRow_pos :
    ∀ (v row : List ℚ), (∀ x ∈ v, 0 < x) → (∀ r ∈ row, -1 < r) →
      ∀ y ∈ stepRow v row, 0 < y
  | [], _, _, _ => by simp [stepRow]
  | _ :: _, [], _, _ => by simp [stepRow]
  | a :: v, r :: row, hv, hr => by
    intro y hy
    simp only [stepRow, List.zipWith_cons_cons, List.mem_cons] at hy
    rcases hy with h | h
    · have ha : 0 < a := hv a (by simp)
      have hrr : -1 < r := hr r (by simp)
      have h1 : 0 < 1 + r := by linarith
      rw [h]
      exact mul_pos ha h1
    · exact mem_stepRow_pos v row (fun x hx => hv x (by simp [hx]))
        (fun x hx => hr x (by simp [hx])) y h

lemma stepRow_length (v row : List ℚ) :
    (stepRow v row).length = min v.length row.length := by
  simp [stepRow]

lemma foldl_stepRow_length (n : ℕ) :
    ∀ (g : List (ℕ × List ℚ)) (v : List ℚ), v.length = n →
      (∀ dr ∈ g, (dr.2 : List ℚ).length = n) →
      (g.foldl (fun acc dr => stepRow acc dr.2) v).length = n
  | [], _, hv, _ => hv
  | dr :: g, v, hv, hg => by
    simp only [List.foldl_cons]
    refine foldl_stepRow_length n g _ ?_ (fun x hx => hg x (List.mem_cons_of_mem _ hx))
    rw [stepRow_length, hv, hg dr (List.mem_cons_self _ _), min_self]

lemma periodFactor_length (n : ℕ) (g : List (ℕ × List ℚ))
    (hg : ∀ dr ∈ g, (dr.2 : List ℚ).length = n) :
    (periodFactor n g).length = n :=
  foldl_stepRow_length n g _ (by simp) hg

lemma foldl_stepRow_pos :
    ∀ (g : List (ℕ × List ℚ)) (v : List ℚ), (∀ x ∈ v, 0 < x) →
      (∀ dr ∈ g, ∀ r ∈ (dr.2 : List ℚ), -1 < r) →
      ∀ y ∈ g.foldl (fun acc dr => stepRow acc dr.2) v, 0 < y
  | [], _, hv, _ => hv
  | dr :: g, v, hv, hg => by
    simp only [List.foldl_cons]
    exact foldl_stepRow_pos g _ (mem_stepRow_pos v dr.2 hv (hg dr (by simp)))
      (fun x hx => hg x (by simp [hx]))

lemma periodFactor_pos (n : ℕ) (g : List (ℕ × List ℚ))
    (hg : ∀ dr ∈ g, ∀ r ∈ (dr.2 : List ℚ), -1 < r) :
    ∀ y ∈ periodFactor n g, 0 < y := by
  refine foldl_stepRow_pos g _ ?_ hg
  intro x hx
  rw [List.eq_of_mem_replicate hx]
  norm_num

lemma mem_zipWith_mul_nonneg :
    ∀ (t f : List ℚ), (∀ x ∈ t, 0 ≤ x) → (∀ y ∈ f, 0 ≤ y) →
      ∀ z ∈ List.zipWith (· * ·) t f, 0 ≤ z
  | [], _, _, _ => by simp
  | _ :: _, [], _, _ => by simp
  | a :: t, b :: f, ht, hf => by
    intro z hz
    simp only [List.zipWith_cons_cons, List.mem_cons] at hz
    rcases hz with h | h
    · rw [h]
      exact mul_nonneg (ht a (by simp)) (hf b (by simp))
    · exact mem_zipWith_mul_nonneg t f (fun x hx => ht x (by simp [hx]))
        (fun y hy => hf y (by simp [hy])) z h

lemma sum_zipWith_mul_nonneg (t f : List ℚ) (ht : ∀ x ∈ t, 0 ≤ x)
    (hf : ∀ y ∈ f, 0 ≤ y) : 0 ≤ (List.zipWith (· * ·) t f).sum :=
  List.sum_nonneg (mem_zipWith_mul_nonneg t f ht hf)

lemma sum_zipWith_mul_pos :
    ∀ (t f : List ℚ), t.length = f.length → (∀ x ∈ t, 0 ≤ x) →
      (∀ y ∈ f, 0 < y) → 0 < t.sum →
      0 < (List.zipWith (· * ·) t f).sum
  | [], _, _, _, _, hs => by simp at hs
  | _ :: _, [], hl, _, _, _ => by simp at hl
  | a :: t, b :: f, hl, ht, hf, hs => by
    have ha : 0 ≤ a := ht a (by simp)
    have htail : ∀ x ∈ t, 0 ≤ x := fun x hx => ht x (by simp [hx])
    have hftail : ∀ y ∈ f, 0 < y := fun y hy => hf y (by simp [hy])
    simp only [List.zipWith_cons_cons, List.sum_cons]
    rcases lt_or_eq_of_le ha with ha' | ha'
    · have h1 : 0 < a * b := mul_pos ha' (hf b (by simp))
      have h2 : 0 ≤ (List.zipWith (· * ·) t f).sum :=
        sum_zipWith_mul_nonneg t f htail (fun y hy => le_of_lt (hftail y hy))
      linarith
    · have hs' : 0 < t.sum := by
        simp only [List.sum_cons, ← ha', zero_add] at hs
        exact hs
      have := sum_zipWith_mul_pos t f (by simpa using hl) htail hftail hs'
      rw [← ha', zero_mul, zero_add]
      exact this

/-! ### Helper lemmas about the turnover distance -/

lemma l1dist_nonneg : ∀ (t p : List ℚ), 0 ≤ l1dist t p
  | [], _ => by simp [l1dist]
  | _ :: _, [] => by simp [l1dist]
  | a :: t, b :: p => by
    have ih := l1dist_nonneg t p
    have habs := abs_nonneg (a - b)
    simp only [l1dist, List.zipWith_cons_cons, List.sum_cons] at ih ⊢
    linarith

lemma l1dist_le_sums :
    ∀ (t p : List ℚ), (∀ x ∈ t, 0 ≤ x) → (∀ y ∈ p, 0 ≤ y) →
      t.length = p.length → l1dist t p ≤ t.sum + p.sum
  | [], [], _, _, _ => by simp [l1dist]
  | [], _ :: _, _, _, hl => by simp at hl
  | _ :: _, [], _, _, hl => by simp at hl
  | a :: t, b :: p, ht, hp, hl => by
    have ih := l1dist_le_sums t p (fun x hx => ht x (by simp [hx]))
      (fun y hy => hp y (by simp [hy])) (by simpa using hl)
    have ha : 0 ≤ a := ht a (by simp)
    have hb : 0 ≤ b := hp b (by simp)
    have habs : |a - b| ≤ a + b := abs_le.mpr ⟨by linarith, by linarith⟩
    simp only [l1dist, List.zipWith_cons_cons, List.sum_cons] at ih ⊢
    linarith

/-! ### The local characterization of the rebalancing loop -/

lemma runPeriodRows_fst_scaled (target : List ℚ) (c : ℚ)
    (g : List (ℕ × List ℚ)) :
    (runPeriodRows (target.map (fun x => c * x)) g).1 =
      (List.zipWith (· * ·) target (periodFactor target.length g)).map
        (fun x => c * x) := by
  rw [runPeriodRows_fst, foldl_stepRow_map_mul]
  congr 1
  conv_lhs => rw [← zipWith_mul_replicate_one target]
  rw [foldl_stepRow_zipWith_mul]
  rfl

lemma periodGrown_sum_pos (target : List ℚ) (htpos : ∀ x ∈ target, 0 ≤ x)
    (hts : target.sum = 1) (g : List (ℕ × List ℚ))
    (hglen : ∀ dr ∈ g, (dr.2 : List ℚ).length = target.length)
    (hgret : ∀ dr ∈ g, ∀ r ∈ (dr.2 : List ℚ), -1 < r) :
    0 < (List.zipWith (· * ·) target (periodFactor target.length g)).sum := by
  refine sum_zipWith_mul_pos target _ ?_ htpos
    (periodFactor_pos target.length g hgret) (by rw [hts]; norm_num)
  exact (periodFactor_length target.length g hglen).symm

lemma periodPreWeights_props (target : List ℚ) (htpos : ∀ x ∈ target, 0 ≤ x)
    (hts : target.sum = 1) (g : List (ℕ × List ℚ))
    (hglen : ∀ dr ∈ g, (dr.2 : List ℚ).length = target.length)
    (hgret : ∀ dr ∈ g, ∀ r ∈ (dr.2 : List ℚ), -1 < r) :
    (periodPreWeights target g).length = target.length ∧
      (∀ y ∈ periodPreWeights target g, 0 ≤ y) ∧
      (periodPreWeights target g).sum = 1 := by
  have hslen : (List.zipWith (· * ·) target (periodFactor target.length g)).length =
      target.length := by
    rw [List.length_zipWith, periodFactor_length target.length g hglen, min_self]
  have hnn : ∀ z ∈ List.zipWith (· * ·) target (periodFactor target.length g), 0 ≤ z :=
    mem_zipWith_mul_nonneg _ _ htpos
      (fun y hy => le_of_lt (periodFactor_pos target.length g hgret y hy))
  have hpos := periodGrown_sum_pos target htpos hts g hglen hgret
  refine ⟨?_, normalizeRow_nonneg _ hnn, normalizeRow_sum _ (ne_of_gt hpos)⟩
  rw [periodPreWeights, normalizeRow_length, hslen]

lemma turnover_in_unit_interval (target : List ℚ) (htpos : ∀ x ∈ target, 0 ≤ x)
    (hts : target.sum = 1) (g : List (ℕ × List ℚ))
    (hglen : ∀ dr ∈ g, (dr.2 : List ℚ).length = target.length)
    (hgret : ∀ dr ∈ g, ∀ r ∈ (dr.2 : List ℚ), -1 < r) :
    0 ≤ (1 / 2 : ℚ) * l1dist target (periodPreWeights target g) ∧
      (1 / 2 : ℚ) * l1dist target (periodPreWeights target g) ≤ 1 := by
  obtain ⟨hplen, hpnn, hpsum⟩ := periodPreWeights_props target htpos hts g hglen hgret
  constructor
  · have := l1dist_nonneg target (periodPreWeights target g)
    linarith
  · have := l1dist_le_sums target (periodPreWeights target g) htpos hpnn hplen.symm
    rw [hts, hpsum] at this
    linarith

lemma runPeriods_snd_char (target : List ℚ) (htpos : ∀ x ∈ target, 0 ≤ x)
    (hts : target.sum = 1) :
    ∀ (periods : List (List (ℕ × List ℚ))) (c : ℚ), 0 < c →
      (∀ g ∈ periods, ∀ dr ∈ g, (dr.2 : List ℚ).length = target.length ∧
        ∀ r ∈ (dr.2 : List ℚ), -1 < r) →
      (runPeriods target (target.map (fun x => c * x)) periods).2 =
        (periods.filter (fun g => !g.isEmpty)).map
          (fun g => ((g.getLastD (0, [])).1,
            (1 / 2 : ℚ) * l1dist target (periodPreWeights target g)))
  | [], c, hc, hp => by simp [runPeriods]
  | g :: gs, c, hc, hp => by
    have hglen : ∀ dr ∈ g, (dr.2 : List ℚ).length = target.length :=
      fun dr hdr => (hp g (by simp) dr hdr).1
    have hgret : ∀ dr ∈ g, ∀ r ∈ (dr.2 : List ℚ), -1 < r :=
      fun dr hdr => (hp g (by simp) dr hdr).2
    have hptail : ∀ g2 ∈ gs, ∀ dr ∈ g2, (dr.2 : List ℚ).length = target.length ∧
        ∀ r ∈ (dr.2 : List ℚ), -1 < r :=
      fun g2 hg2 => hp g2 (by simp [hg2])
    by_cases hg : g.isEmpty
    · simp only [runPeriods, hg, if_true, List.filter_cons, Bool.not_eq_true']
      rw [runPeriods_snd_char target htpos hts gs c hc hptail]
      simp [hg]
    · have hfst := runPeriodRows_fst_scaled target c g
      have hsum : (runPeriodRows (target.map (fun x => c * x)) g).1.sum =
          c * (List.zipWith (· * ·) target (periodFactor target.length g)).sum := by
        rw [hfst, sum_map_mul_left]
      have hpre : normalizeRow (runPeriodRows (target.map (fun x => c * x)) g).1 =
          periodPreWeights target g := by
        rw [hfst, normalizeRow_map_mul c (ne_of_gt hc), periodPreWeights]
      have hc2 : 0 < c * (List.zipWith (· * ·) target (periodFactor target.length g)).sum :=
        mul_pos hc (periodGrown_sum_pos target htpos hts g hglen hgret)
      simp only [runPeriods, hg, if_false, Bool.false_eq_true]
      rw [List.filter_cons_of_pos (by simp [hg])]
      simp only [List.map_cons, hpre]
      have hrec := runPeriods_snd_char target htpos hts gs
        (c * (List.zipWith (· * ·) target (periodFactor target.length g)).sum) hc2 hptail
      rw [hsum]
      rw [show (fun t => c * (List.zipWith (· * ·) target
          (periodFactor target.length g)).sum * t) =
          (fun x => c * (List.zipWith (· * ·) target
          (periodFactor target.length g)).sum * x) from rfl] at hrec ⊢
      rw [hrec]

lemma runPeriods_fst_dates (target : List ℚ) :
    ∀ (periods : List (List (ℕ × List ℚ))) (values : List ℚ),
      (runPeriods target values periods).1.map Prod.fst =
        periods.flatten.map Prod.fst
  | [], _ => rfl
  | g :: gs, values => by
    by_cases hg : g.isEmpty
    · have : g = [] := List.isEmpty_iff.mp hg
      subst this
      simp only [runPeriods, List.isEmpty_nil, if_true, List.flatten, List.nil_append]
      exact runPeriods_fst_dates target gs values
    · simp only [runPeriods, hg, if_false, Bool.false_eq_true, List.flatten,
        List.map_append]
      rw [runPeriodRows_map_fst, runPeriods_fst_dates target gs]

/-! ### Helper lemmas about weight-dict lookups -/

lemma lookup_eq_none_of_notMem :
    ∀ (wm : List (String × ℚ)) (a : String), a ∉ wm.map Prod.fst →
      List.lookup a wm = none
  | [], _, _ => rfl
  | (k, x) :: wm, a, h => by
    simp only [List.map_cons, List.mem_cons] at h
    push_neg at h
    simp only [List.lookup, beq_eq_false_iff_ne.mpr h.1, Bool.false_eq_true,
      if_false]
    exact lookup_eq_none_of_notMem wm a h.2

lemma getW_cons_notMem (wm : List (String × ℚ)) (a : String)
    (h : a ∉ wm.map Prod.fst) (b : String) :
    getW ((a, 0) :: wm) b = getW wm b := by
  by_cases hb : b = a
  · subst hb
    simp [getW, List.lookup, lookup_eq_none_of_notMem wm b h]
  · simp [getW, List.lookup, beq_eq_false_iff_ne.mpr hb]

lemma getW_scale (c : ℚ) :
    ∀ (wm : List (String × ℚ)) (a : String),
      getW (scaleWeights c wm) a = c * getW wm a
  | [], a => by simp [getW, scaleWeights]
  | (k, x) :: wm, a => by
    by_cases h : a = k
    · subst h
      simp [getW, scaleWeights, List.lookup]
    · simp only [getW, scaleWeights, List.map_cons, List.lookup,
        beq_eq_false_iff_ne.mpr h, Bool.false_eq_true, if_false]
      exact getW_scale c wm a

/-! ### Helper lemmas about the buy-and-hold path -/

lemma cumprodFrom_length :
    ∀ (rows : List (List ℚ)) (acc : List ℚ),
      (cumprodFrom acc rows).length = rows.length
  | [], _ => rfl
  | r :: rs, acc => by
    simp only [cumprodFrom, List.length_cons]
    rw [cumprodFrom_length rs]

lemma buyAndHoldValues_length (assets : List String) (wm : List (String × ℚ))
    (rows : List (List ℚ)) :
    (buyAndHoldValues assets wm rows).length = rows.length := by
  rw [buyAndHoldValues]
  simp only [List.length_map]
  exact cumprodFrom_length rows _

lemma buyAndHold_row_sum (assets : List String) (wm : List (String × ℚ))
    (rows : List (List ℚ))
    (hnd : ∀ v ∈ buyAndHoldValues assets wm rows, v.sum ≠ 0) :
    ∀ w ∈ weights_over_time_buy_and_hold assets wm rows, w.sum = 1 := by
  intro w hw
  simp only [weights_over_time_buy_and_hold, List.mem_map] at hw
  obtain ⟨v, hv, rfl⟩ := hw
  exact normalizeRow_sum v (hnd v hv)

lemma buyAndHoldValues_scale (c : ℚ) (assets : List String)
    (wm : List (String × ℚ)) (rows : List (List ℚ)) :
    buyAndHoldValues assets (scaleWeights c wm) rows =
      (buyAndHoldValues assets wm rows).map (List.map (fun x => c * x)) := by
  have hw : getW (scaleWeights c wm) = fun a => c * getW wm a :=
    funext (getW_scale c wm)
  simp only [buyAndHoldValues, hw, List.map_map]
  have hmap : assets.map ((fun a => c * getW wm a)) =
      (assets.map (getW wm)).map (fun x => c * x) := by
    rw [List.map_map]
    rfl
  rw [hmap]
  congr 1
  funext row
  simp only [Function.comp_apply]
  exact zipWith_mul_map_left c row (assets.map (getW wm))

lemma buyAndHold_scale_invariant (c : ℚ) (hc : c ≠ 0) (assets : List String)
    (wm : List (String × ℚ)) (rows : List (List ℚ)) :
    weights_over_time_buy_and_hold assets (scaleWeights c wm) rows =
      weights_over_time_buy_and_hold assets wm rows := by
  rw [weights_over_time_buy_and_hold, buyAndHoldValues_scale, List.map_map,
    weights_over_time_buy_and_hold]
  congr 1
  funext v
  simp only [Function.comp_apply]
  exact normalizeRow_map_mul c hc v

/-! ### Helper lemmas about running maxima and minima -/

lemma foldl_min_le {K : Type} [LinearOrder K] :
    ∀ (xs : List K) (x : K), xs.foldl min x ≤ x
  | [], x => le_refl x
  | y :: xs, x => le_trans (foldl_min_le xs (min x y)) (min_le_left x y)

lemma foldl_min_const {K : Type} [LinearOrder K] :
    ∀ (xs : List K) (x : K), (∀ y ∈ xs, x ≤ y) → xs.foldl min x = x
  | [], _, _ => rfl
  | y :: xs, x, h => by
    rw [List.foldl_cons, min_eq_left (h y (by simp))]
    exact foldl_min_const xs x (fun z hz => h z (by simp [hz]))

lemma cummaxFrom_map_div (v0 : ℚ) (h : 0 < v0) :
    ∀ (l : List ℚ) (m : ℚ),
      cummaxFrom (m / v0) (l.map (fun x => x / v0)) =
        (cummaxFrom m l).map (fun x => x / v0)
  | [], _ => rfl
  | x :: l, m => by
    simp only [List.map_cons, cummaxFrom]
    rw [max_div_div_right (le_of_lt h)]
    rw [cummaxFrom_map_div v0 h l (max m x)]

lemma cummax_map_div (v0 : ℚ) (h : 0 < v0) (l : List ℚ) :
    cummax (l.map (fun x => x / v0)) = (cummax l).map (fun x => x / v0) := by
  cases l with
  | nil => rfl
  | cons x l =>
    simp only [List.map_cons, cummax]
    rw [cummaxFrom_map_div v0 h]

lemma div_div_div_self (a b v0 : ℚ) (h : v0 ≠ 0) :
    a / v0 / (b / v0) = a / b := by
  rw [div_div_div_comm, div_self h, div_one]

lemma zipWith_dd_div (v0 : ℚ) (h : v0 ≠ 0) :
    ∀ (l r : List ℚ),
      List.zipWith (fun c m => c / m - 1) (l.map (fun x => x / v0))
          (r.map (fun x => x / v0)) =
        List.zipWith (fun v m => v / m - 1) l r
  | [], _ => by simp
  | _ :: _, [] => by simp
  | a :: l, b :: r => by
    simp only [List.map_cons, List.zipWith_cons_cons, List.cons.injEq]
    exact ⟨by rw [div_div_div_self a b v0 h], zipWith_dd_div v0 h l r⟩

lemma cummaxFrom_of_chain {K : Type} [LinearOrder K] :
    ∀ (l : List K) (m : K), List.Chain (· ≤ ·) m l → cummaxFrom m l = l
  | [], _, _ => rfl
  | x :: l, m, h => by
    cases h with
    | cons hmx hl =>
      simp only [cummaxFrom]
      rw [max_eq_right hmx, cummaxFrom_of_chain l x hl]

lemma cummax_of_chain {K : Type} [LinearOrder K] (l : List K)
    (h : List.Chain' (· ≤ ·) l) : cummax l = l := by
  cases l with
  | nil => rfl
  | cons x l =>
    simp only [cummax]
    rw [cummaxFrom_of_chain l x h]

lemma zipWith_self {K : Type} (f : K → K → K) :
    ∀ (l : List K), List.zipWith f l l = l.map (fun x => f x x)
  | [] => rfl
  | x :: l => by simp [zipWith_self f l]

lemma max_drawdown_char (values : List ℚ) (hne : values ≠ [])
    (hpos : ∀ v ∈ values, 0 < v) :
    max_drawdown values =
      minD 0 (List.zipWith (fun v m => v / m - 1) values (cummax values)) := by
  obtain ⟨v0, rest, rfl⟩ := List.exists_cons_of_ne_nil hne
  have hv0 : 0 < v0 := hpos v0 (by simp)
  rw [max_drawdown]
  simp only [List.headD_cons]
  rw [cummax_map_div v0 hv0, zipWith_dd_div v0 (ne_of_gt hv0)]

lemma max_drawdown_nonpos (values : List ℚ) (hne : values ≠ [])
    (hpos : ∀ v ∈ values, 0 < v) :
    max_drawdown values ≤ 0 := by
  rw [max_drawdown_char values hne hpos]
  obtain ⟨v0, rest, rfl⟩ := List.exists_cons_of_ne_nil hne
  have hv0 : 0 < v0 := hpos v0 (by simp)
  simp only [cummax, List.zipWith_cons_cons, minD]
  rw [div_self (ne_of_gt hv0)]
  have := foldl_min_le
    (List.zipWith (fun v m => v / m - 1) rest (cummaxFrom v0 rest)) (1 - 1 : ℚ)
  simpa using this

lemma max_drawdown_monotone (values : List ℚ) (hne : values ≠ [])
    (hpos : ∀ v ∈ values, 0 < v)
    (hmono : List.Chain' (· ≤ ·) values) :
    max_drawdown values = 0 := by
  rw [max_drawdown_char values hne hpos, cummax_of_chain values hmono,
    zipWith_self]
  obtain ⟨v0, rest, rfl⟩ := List.exists_cons_of_ne_nil hne
  have hv0 : 0 < v0 := hpos v0 (by simp)
  simp only [List.map_cons, minD]
  rw [div_self (ne_of_gt hv0)]
  have hz : (1 : ℚ) - 1 = 0 := by norm_num
  rw [hz]
  refine foldl_min_const _ _ ?_
  intro y hy
  simp only [List.mem_map] at hy
  obtain ⟨v, hv, rfl⟩ := hy
  rw [div_self (ne_of_gt (hpos v (by simp [hv])))]
  norm_num

/-! ### The claims -/

/-- Claim C1 counterexample: optimize_portfolio_sharpe does not
post-process the solver iterate.  At the concrete iterate
[3/5, 3/5] the returned weights are not the clipped-renormalized
weights, and their sum 6/5 is not within 1e-6 of 1. -/
theorem C1_counterexample :
    optimize_portfolio_sharpe [3/5, 3/5] ≠ postprocessWeights [3/5, 3/5] ∧
      ¬ |(optimize_portfolio_sharpe [3/5, 3/5]).sum - 1| ≤ 1/1000000 := by
  constructor
  · have h : postprocessWeights [3/5, 3/5] = [1/2, 1/2] := by
      norm_num [postprocessWeights, clip01, normalizeRow]
    rw [h, optimize_portfolio_sharpe]
    norm_num
  · have hsum : (optimize_portfolio_sharpe [3/5, 3/5]).sum - 1 = (1/5 : ℚ) := by
      norm_num [optimize_portfolio_sharpe]
    rw [hsum, abs_of_pos (by norm_num : (0 : ℚ) < 1/5)]
    norm_num

/-- Claim C1 (amended): only the two recommend variants post-process
the solver iterate by clipping each weight to [0,1] and renormalizing,
so their returned vector sums to exactly 1 whenever the clipped iterate
has nonzero sum; optimize_portfolio_sharpe returns the solver iterate
unchanged. -/
theorem C1_postprocessing (solverX : List ℚ) :
    ((solverX.map clip01).sum ≠ 0 →
      (recommend_weights_for_target_return solverX).sum = 1 ∧
        (recommend_weights_for_max_vol solverX).sum = 1) ∧
      optimize_portfolio_sharpe solverX = solverX := by
  refine ⟨fun h => ⟨?_, ?_⟩, rfl⟩ <;> exact normalizeRow_sum _ h

/-- Claim C1 witness: the amended statement at the concrete iterate
[3/2, -1/2]. -/
theorem C1_witness :
    (([3/2, -1/2] : List ℚ).map clip01).sum ≠ 0 ∧
      (recommend_weights_for_target_return [3/2, -1/2]).sum = 1 ∧
      (recommend_weights_for_max_vol [3/2, -1/2]).sum = 1 ∧
      optimize_portfolio_sharpe [3/2, -1/2] = [3/2, -1/2] := by
  have hc : (([3/2, -1/2] : List ℚ).map clip01).sum ≠ 0 := by
    norm_num [clip01]
  exact ⟨hc, ((C1_postprocessing [3/2, -1/2]).1 hc).1,
    ((C1_postprocessing [3/2, -1/2]).1 hc).2,
    (C1_postprocessing [3/2, -1/2]).2⟩

/-- Claim C2 counterexample: generate_random_portfolios does not leave
the process-wide random state unchanged.  Starting from global state 7
with seed 42 and one draw, the state after the call is 43, not 7. -/
theorem C2_counterexample :
    (generate_random_portfolios [0] [[0]] 1 1 42 7).2 ≠ 7 := by
  decide

/-- Claim C2 (amended): generate_random_portfolios takes its seed as an
explicit parameter but reseeds the process-wide generator
(np.random.seed) at the start of the call: the entire call result,
including the final global state, is a function of the arguments alone
and independent of the prior global state, which is overwritten rather
than preserved. -/
theorem C2_reseeding (dates : List ℚ) (rows : List (List ℚ))
    (nAssets numPortfolios seed s s2 : ℕ) :
    generate_random_portfolios dates rows nAssets numPortfolios seed s =
        generate_random_portfolios dates rows nAssets numPortfolios seed s2 ∧
      (generate_random_portfolios dates rows nAssets numPortfolios seed s).2 =
        npSeedState seed + 1 :=
  ⟨rfl, rfl⟩

/-- Claim C3: generate_random_portfolios is deterministic in
(returns, numPortfolios, seed): the produced records do not depend on
the incoming global random state, and the recorded weight samples are,
in draw order, exactly the samples determined by the seeded state. -/
theorem C3_determinism (dates : List ℚ) (rows : List (List ℚ))
    (nAssets numPortfolios seed s s2 : ℕ) :
    (generate_random_portfolios dates rows nAssets numPortfolios seed s).1 =
        (generate_random_portfolios dates rows nAssets numPortfolios seed s2).1 ∧
      ((generate_random_portfolios dates rows nAssets numPortfolios seed s).1).map
          (fun rec => rec.weights) =
        dirichletSamples (npSeedState seed) nAssets numPortfolios := by
  refine ⟨rfl, ?_⟩
  simp only [generate_random_portfolios, npDirichletCall, List.map_map]
  exact List.map_id _

/-- Claim C4: in simulate_rebalancing, the turnover recorded at each
non-empty period's last date is half the L1 distance between the target
weights and the pre-rebalance weights at that date (characterized
locally by periodPreWeights, which is well defined because the value
vector is reset to totalValue * target at each boundary); empty periods
produce no turnover record and no weight rows (the weight-row dates are
exactly the dates of the non-empty periods); each recorded turnover
lies in [0,1] for a valid target (non-negative, summing to 1) and
returns above -100 percent; and the concrete one-period drift from
target [1/2, 1/2] to pre-rebalance weights [3/5, 2/5] records turnover
1/10. -/
theorem C4_turnover :
    (∀ (assets : List String) (wm : List (String × ℚ))
        (periods : List (List (ℕ × List ℚ))),
      (∀ a ∈ assets, 0 ≤ getW wm a) →
      (assets.map (getW wm)).sum = 1 →
      (∀ g ∈ periods, ∀ dr ∈ g, (dr.2 : List ℚ).length = assets.length ∧
        ∀ r ∈ (dr.2 : List ℚ), -1 < r) →
      (simulate_rebalancing assets wm periods).2 =
          (periods.filter (fun g => !g.isEmpty)).map
            (fun g => ((g.getLastD (0, [])).1,
              (1 / 2 : ℚ) * l1dist (assets.map (getW wm))
                (periodPreWeights (assets.map (getW wm)) g))) ∧
        (simulate_rebalancing assets wm periods).1.map Prod.fst =
          periods.flatten.map Prod.fst ∧
        ∀ dt ∈ (simulate_rebalancing assets wm periods).2,
          0 ≤ dt.2 ∧ dt.2 ≤ 1) ∧
      (simulate_rebalancing ["A", "B"] [("A", 1/2), ("B", 1/2)]
          [[(0, [1/5, -1/5])]]).2 = [(0, 1/10)] := by
  constructor
  · intro assets wm periods htpos hts hp
    have htpos2 : ∀ x ∈ assets.map (getW wm), 0 ≤ x := by
      intro x hx
      obtain ⟨a, ha, rfl⟩ := List.mem_map.mp hx
      exact htpos a ha
    have hlen : ∀ g ∈ periods, ∀ dr ∈ g,
        (dr.2 : List ℚ).length = (assets.map (getW wm)).length ∧
          ∀ r ∈ (dr.2 : List ℚ), -1 < r := by
      intro g hg dr hdr
      rw [List.length_map]
      exact hp g hg dr hdr
    have hchar := runPeriods_snd_char (assets.map (getW wm)) htpos2 hts periods 1
      one_pos hlen
    rw [show (assets.map (getW wm)).map (fun x => (1 : ℚ) * x) =
        assets.map (getW wm) from by simp] at hchar
    have hsim : simulate_rebalancing assets wm periods =
        runPeriods (assets.map (getW wm)) (assets.map (getW wm)) periods := rfl
    refine ⟨by rw [hsim, hchar], ?_, ?_⟩
    · rw [hsim]
      exact runPeriods_fst_dates _ periods _
    · intro dt hdt
      rw [hsim, hchar] at hdt
      obtain ⟨g, hgmem, rfl⟩ := List.mem_map.mp hdt
      have hgp : g ∈ periods := (List.mem_filter.mp hgmem).1
      exact turnover_in_unit_interval (assets.map (getW wm)) htpos2 hts g
        (fun dr hdr => (hlen g hgp dr hdr).1) (fun dr hdr => (hlen g hgp dr hdr).2)
  · have hA : getW [("A", (1 : ℚ)/2), ("B", 1/2)] "A" = 1/2 := rfl
    have hB : getW [("A", (1 : ℚ)/2), ("B", 1/2)] "B" = 1/2 := rfl
    norm_num [simulate_rebalancing, runPeriods, runPeriodRows, stepRow,
      normalizeRow, l1dist, hA, hB]
    rw [abs_of_pos (show (0 : ℚ) < 1/10 by norm_num)]
    norm_num

/-- Claim C4 witness: the general statement instantiated at the
concrete two-asset, one-period simulation. -/
theorem C4_witness :
    (∀ a ∈ ["A", "B"], 0 ≤ getW [("A", 1/2), ("B", 1/2)] a) ∧
      ((["A", "B"].map (getW [("A", 1/2), ("B", 1/2)])).sum = 1) ∧
      (∀ g ∈ [[((0 : ℕ), [(1 : ℚ)/5, -1/5])]], ∀ dr ∈ g,
        (dr.2 : List ℚ).length = (["A", "B"] : List String).length ∧
          ∀ r ∈ (dr.2 : List ℚ), -1 < r) ∧
      ((simulate_rebalancing ["A", "B"] [("A", 1/2), ("B", 1/2)]
            [[(0, [1/5, -1/5])]]).2 =
          ([[((0 : ℕ), [(1 : ℚ)/5, -1/5])]].filter (fun g => !g.isEmpty)).map
            (fun g => ((g.getLastD (0, [])).1,
              (1 / 2 : ℚ) * l1dist (["A", "B"].map (getW [("A", 1/2), ("B", 1/2)]))
                (periodPreWeights
                  (["A", "B"].map (getW [("A", 1/2), ("B", 1/2)])) g))) ∧
        (simulate_rebalancing ["A", "B"] [("A", 1/2), ("B", 1/2)]
              [[(0, [1/5, -1/5])]]).1.map Prod.fst =
          ([[((0 : ℕ), [(1 : ℚ)/5, -1/5])]] : List (List (ℕ × List ℚ))).flatten.map
            Prod.fst ∧
        ∀ dt ∈ (simulate_rebalancing ["A", "B"] [("A", 1/2), ("B", 1/2)]
            [[(0, [1/5, -1/5])]]).2, 0 ≤ dt.2 ∧ dt.2 ≤ 1) := by
  have hA : getW [("A", (1 : ℚ)/2), ("B", 1/2)] "A" = 1/2 := rfl
  have hB : getW [("A", (1 : ℚ)/2), ("B", 1/2)] "B" = 1/2 := rfl
  have h1 : ∀ a ∈ ["A", "B"], 0 ≤ getW [("A", 1/2), ("B", 1/2)] a := by
    intro a ha
    simp only [List.mem_cons, List.not_mem_nil, or_false] at ha
    rcases ha with rfl | rfl
    · rw [hA]
      norm_num
    · rw [hB]
      norm_num
  have h2 : (["A", "B"].map (getW [("A", 1/2), ("B", 1/2)])).sum = 1 := by
    norm_num [hA, hB]
  have h3 : ∀ g ∈ [[((0 : ℕ), [(1 : ℚ)/5, -1/5])]], ∀ dr ∈ g,
      (dr.2 : List ℚ).length = (["A", "B"] : List String).length ∧
        ∀ r ∈ (dr.2 : List ℚ), -1 < r := by
    intro g hg dr hdr
    simp only [List.mem_cons, List.not_mem_nil, or_false] at hg
    subst hg
    simp only [List.mem_cons, List.not_mem_nil, or_false] at hdr
    subst hdr
    refine ⟨by norm_num, ?_⟩
    intro r hr
    simp only [List.mem_cons, List.not_mem_nil, or_false] at hr
    rcases hr with rfl | rfl <;> norm_num
  exact ⟨h1, h2, h3, C4_turnover.1 ["A", "B"] [("A", 1/2), ("B", 1/2)]
    [[(0, [1/5, -1/5])]] h1 h2 h3⟩

/-- Claim C5: for a single-asset input every optimizer variant returns
weight 1.0.  The two recommend variants return [1] for any positive
solver iterate, because clipping and renormalizing a positive singleton
gives 1 exactly; optimize_portfolio_sharpe returns the solver iterate
unchanged, so it returns [1] whenever the iterate satisfies the
solver's sum-to-one equality constraint, which for one asset forces the
iterate [1]. -/
theorem C5_single_asset :
    (∀ x : ℚ, 0 < x →
      recommend_weights_for_target_return [x] = [1] ∧
        recommend_weights_for_max_vol [x] = [1]) ∧
      ∀ xs : List ℚ, xs.length = 1 → xs.sum = 1 →
        recommend_weights_for_target_return xs = [1] ∧
          recommend_weights_for_max_vol xs = [1] ∧
          optimize_portfolio_sharpe xs = [1] := by
  have key : ∀ x : ℚ, 0 < x → postprocessWeights [x] = [1] := by
    intro x hx
    have hmin : 0 < min 1 x := lt_min one_pos hx
    have hclip : 0 < clip01 x := by
      rw [clip01]
      exact lt_max_iff.mpr (Or.inr hmin)
    simp [postprocessWeights, normalizeRow, div_self (ne_of_gt hclip)]
  constructor
  · intro x hx
    exact ⟨key x hx, key x hx⟩
  · intro xs hlen hsum
    obtain ⟨a, rfl⟩ := List.length_eq_one.mp hlen
    simp only [List.sum_cons, List.sum_nil, add_zero] at hsum
    subst hsum
    exact ⟨key 1 one_pos, key 1 one_pos, rfl⟩

/-- Claim C5 witness: the statement at the concrete positive iterate
[1/2] and at the constraint-satisfying iterate [1]. -/
theorem C5_witness :
    (0 : ℚ) < 1/2 ∧
      (recommend_weights_for_target_return [1/2] = [1] ∧
        recommend_weights_for_max_vol [1/2] = [1]) ∧
      ([(1 : ℚ)].length = 1) ∧ ([(1 : ℚ)].sum = 1) ∧
      (recommend_weights_for_target_return [1] = [1] ∧
        recommend_weights_for_max_vol [1] = [1] ∧
        optimize_portfolio_sharpe [1] = [1]) :=
  ⟨by norm_num, C5_single_asset.1 (1/2) (by norm_num), by norm_num, by norm_num,
    C5_single_asset.2 [1] (by norm_num) (by norm_num)⟩

/-- Claim C6: for every non-degenerate input (no date with a zero sum
of tracked values) the buy-and-hold weight path has one row per input
date, each row is exactly the tracked-value row divided by its sum, and
every row sums to 1. -/
theorem C6_buy_and_hold_sums (assets : List String) (wm : List (String × ℚ))
    (rows : List (List ℚ))
    (hnd : ∀ v ∈ buyAndHoldValues assets wm rows, v.sum ≠ 0) :
    (weights_over_time_buy_and_hold assets wm rows).length = rows.length ∧
      weights_over_time_buy_and_hold assets wm rows =
        (buyAndHoldValues assets wm rows).map normalizeRow ∧
      ∀ w ∈ weights_over_time_buy_and_hold assets wm rows, w.sum = 1 := by
  refine ⟨?_, rfl, buyAndHold_row_sum assets wm rows hnd⟩
  rw [weights_over_time_buy_and_hold, List.length_map, buyAndHoldValues_length]

/-- Claim C6 witness: the statement at a concrete two-asset two-day
input. -/
theorem C6_witness :
    (∀ v ∈ buyAndHoldValues ["A", "B"] [("A", 3/5), ("B", 2/5)]
        [[1/10, -1/10], [0, 0]], v.sum ≠ 0) ∧
      ((weights_over_time_buy_and_hold ["A", "B"] [("A", 3/5), ("B", 2/5)]
          [[1/10, -1/10], [0, 0]]).length = 2 ∧
        weights_over_time_buy_and_hold ["A", "B"] [("A", 3/5), ("B", 2/5)]
            [[1/10, -1/10], [0, 0]] =
          (buyAndHoldValues ["A", "B"] [("A", 3/5), ("B", 2/5)]
              [[1/10, -1/10], [0, 0]]).map normalizeRow ∧
        ∀ w ∈ weights_over_time_buy_and_hold ["A", "B"] [("A", 3/5), ("B", 2/5)]
            [[1/10, -1/10], [0, 0]], w.sum = 1) := by
  have hA : getW [("A", (3 : ℚ)/5), ("B", 2/5)] "A" = 3/5 := rfl
  have hB : getW [("A", (3 : ℚ)/5), ("B", 2/5)] "B" = 2/5 := rfl
  have hnd : ∀ v ∈ buyAndHoldValues ["A", "B"] [("A", 3/5), ("B", 2/5)]
      [[1/10, -1/10], [0, 0]], v.sum ≠ 0 := by
    intro v hv
    simp only [buyAndHoldValues, cumprodFrom, List.map_cons, List.map_nil,
      List.zipWith_cons_cons, List.zipWith_nil_right, List.zipWith_nil_left,
      List.mem_cons, List.not_mem_nil, or_false, hA, hB,
      List.length_cons, List.length_nil, List.replicate] at hv
    rcases hv with rfl | rfl <;> norm_num
  exact ⟨hnd, C6_buy_and_hold_sums ["A", "B"] [("A", 3/5), ("B", 2/5)]
    [[1/10, -1/10], [0, 0]] hnd⟩

/-- Claim C7: sharpe_ratio yields the explicit undefined sentinel
(np.nan, modelled as Option.none) when the annualized volatility is
exactly zero, and otherwise equals
(annualizedMean - riskFreeAnnual) / annualizedVolatility. -/
theorem C7_sharpe_sentinel (xs : List ℝ) (riskFree : ℝ) :
    (annualized_vol xs = 0 → sharpe_ratio xs riskFree = none) ∧
      (annualized_vol xs ≠ 0 →
        sharpe_ratio xs riskFree =
          some ((seriesMean xs * TRADING_DAYS - riskFree) / annualized_vol xs)) := by
  constructor <;> intro h <;> simp [sharpe_ratio, h]

/-- Claim C7 witness: a constant return series has zero annualized
volatility and Sharpe ratio none; the series [0, 1] has nonzero
annualized volatility and the formula value. -/
theorem C7_witness :
    annualized_vol [(1 : ℝ)/2, 1/2] = 0 ∧
      sharpe_ratio [(1 : ℝ)/2, 1/2] 0 = none ∧
      annualized_vol [(0 : ℝ), 1] ≠ 0 ∧
      sharpe_ratio [(0 : ℝ), 1] 0 =
        some ((seriesMean [(0 : ℝ), 1] * TRADING_DAYS - 0) /
          annualized_vol [(0 : ℝ), 1]) := by
  have h0 : annualized_vol [(1 : ℝ)/2, 1/2] = 0 := by
    have hv : sampleVar [(1 : ℝ)/2, 1/2] = 0 := by
      simp only [sampleVar, seriesMean, List.sum_cons, List.sum_nil,
        List.map_cons, List.map_nil, List.length_cons, List.length_nil]
      norm_num
    rw [annualized_vol, hv, Real.sqrt_zero, zero_mul]
  have h1 : annualized_vol [(0 : ℝ), 1] ≠ 0 := by
    have hv : sampleVar [(0 : ℝ), 1] = 1/2 := by
      simp only [sampleVar, seriesMean, List.sum_cons, List.sum_nil,
        List.map_cons, List.map_nil, List.length_cons, List.length_nil]
      norm_num
    have ht : ((TRADING_DAYS : ℕ) : ℝ) = 252 := by norm_num [TRADING_DAYS]
    rw [annualized_vol, hv, ht]
    positivity
  exact ⟨h0, (C7_sharpe_sentinel _ 0).1 h0, h1, (C7_sharpe_sentinel _ 0).2 h1⟩

/-- Claim C8: for every positive value series, max_drawdown equals the
minimum over time of value(t) / runningMax(value, 0..t) - 1 (the
division by the first value cancels), is always at most 0, equals 0 for
a monotonically non-decreasing series, and on [1, 6/5, 9/10, 11/10]
equals 9/10 / (6/5) - 1 = -(1/4). -/
theorem C8_max_drawdown :
    (∀ values : List ℚ, values ≠ [] → (∀ v ∈ values, 0 < v) →
      max_drawdown values =
          minD 0 (List.zipWith (fun v m => v / m - 1) values (cummax values)) ∧
        max_drawdown values ≤ 0 ∧
        (List.Chain' (· ≤ ·) values → max_drawdown values = 0)) ∧
      max_drawdown [(1 : ℚ), 6/5, 9/10, 11/10] = -(1/4) := by
  constructor
  · intro values hne hpos
    exact ⟨max_drawdown_char values hne hpos, max_drawdown_nonpos values hne hpos,
      fun hm => max_drawdown_monotone values hne hpos hm⟩
  · have h1 : max (6/5 : ℚ) (9/10) = 6/5 := max_eq_left (by norm_num)
    have h2 : max (6/5 : ℚ) (11/10) = 6/5 := max_eq_left (by norm_num)
    have h3 : max (1 : ℚ) (6/5) = 6/5 := max_eq_right (by norm_num)
    norm_num [max_drawdown, cummax, cummaxFrom, minD, normalizeRow, h1, h2, h3,
      min_def, max_def]

/-- Claim C8 witness: the general statement instantiated at the
positive series [1, 2]. -/
theorem C8_witness :
    ([(1 : ℚ), 2] ≠ []) ∧ (∀ v ∈ [(1 : ℚ), 2], 0 < v) ∧
      (max_drawdown [(1 : ℚ), 2] =
          minD 0 (List.zipWith (fun v m => v / m - 1) [(1 : ℚ), 2]
            (cummax [(1 : ℚ), 2])) ∧
        max_drawdown [(1 : ℚ), 2] ≤ 0 ∧
        (List.Chain' (· ≤ ·) [(1 : ℚ), 2] → max_drawdown [(1 : ℚ), 2] = 0)) := by
  have hpos : ∀ v ∈ [(1 : ℚ), 2], 0 < v := by
    intro v hv
    simp only [List.mem_cons, List.not_mem_nil, or_false] at hv
    rcases hv with rfl | rfl <;> norm_num
  exact ⟨by simp, hpos, C8_max_drawdown.1 [1, 2] (by simp) hpos⟩

/-- Claim C9: the buy-and-hold weight path is invariant under scaling
all initial weights by any c greater than 0, and the output rows sum to
1 per date for any initial weights with nowhere-zero tracked value sums
(no requirement that the initial weights sum to 1). -/
theorem C9_scaling_invariance (assets : List String) (wm : List (String × ℚ))
    (rows : List (List ℚ)) :
    (∀ c : ℚ, 0 < c →
      weights_over_time_buy_and_hold assets (scaleWeights c wm) rows =
        weights_over_time_buy_and_hold assets wm rows) ∧
      ((∀ v ∈ buyAndHoldValues assets wm rows, v.sum ≠ 0) →
        ∀ w ∈ weights_over_time_buy_and_hold assets wm rows, w.sum = 1) :=
  ⟨fun c hc => buyAndHold_scale_invariant c (ne_of_gt hc) assets wm rows,
    buyAndHold_row_sum assets wm rows⟩

/-- Claim C9 witness: scaling the single initial weight 2/5 (which does
not sum to 1) by c = 3 leaves the weight path unchanged, and the rows
still sum to 1. -/
theorem C9_witness :
    (0 : ℚ) < 3 ∧
      weights_over_time_buy_and_hold ["A"] (scaleWeights 3 [("A", 2/5)]) [[0]] =
        weights_over_time_buy_and_hold ["A"] [("A", 2/5)] [[0]] ∧
      (∀ v ∈ buyAndHoldValues ["A"] [("A", 2/5)] [[0]], v.sum ≠ 0) ∧
      ∀ w ∈ weights_over_time_buy_and_hold ["A"] [("A", 2/5)] [[0]], w.sum = 1 := by
  have hA : getW [("A", (2 : ℚ)/5)] "A" = 2/5 := rfl
  have hnd : ∀ v ∈ buyAndHoldValues ["A"] [("A", 2/5)] [[0]], v.sum ≠ 0 := by
    intro v hv
    simp only [buyAndHoldValues, cumprodFrom, List.map_cons, List.map_nil,
      List.zipWith_cons_cons, List.zipWith_nil_right, List.zipWith_nil_left,
      List.mem_cons, List.not_mem_nil, or_false, hA, List.length_cons,
      List.length_nil, List.replicate] at hv
    subst hv
    norm_num
  exact ⟨by norm_num, (C9_scaling_invariance ["A"] [("A", 2/5)] [[0]]).1 3
    (by norm_num), hnd, (C9_scaling_invariance ["A"] [("A", 2/5)] [[0]]).2 hnd⟩

/-- Claim C10: an asset absent from the supplied weight mapping is
silently given weight 0.0: its lookup defaults to 0, and extending the
mapping with an explicit 0 entry for it changes neither the
buy-and-hold path nor the rebalancing simulation. -/
theorem C10_missing_assets (wm : List (String × ℚ)) (a : String)
    (h : a ∉ wm.map Prod.fst) :
    getW wm a = 0 ∧
      ∀ (assets : List String) (rows : List (List ℚ))
        (periods : List (List (ℕ × List ℚ))),
        weights_over_time_buy_and_hold assets ((a, 0) :: wm) rows =
            weights_over_time_buy_and_hold assets wm rows ∧
          simulate_rebalancing assets ((a, 0) :: wm) periods =
            simulate_rebalancing assets wm periods := by
  have hfun : getW ((a, 0) :: wm) = getW wm := funext (getW_cons_notMem wm a h)
  refine ⟨?_, ?_⟩
  · rw [getW, lookup_eq_none_of_notMem wm a h]
    rfl
  · intro assets rows periods
    constructor
    · simp only [weights_over_time_buy_and_hold, buyAndHoldValues, hfun]
    · simp only [simulate_rebalancing, hfun]

/-- Claim C10 witness: the statement at the mapping [("A", 1/2)] and
the missing asset "C". -/
theorem C10_witness :
    ("C" ∉ ([("A", (1 : ℚ)/2)].map Prod.fst)) ∧
      getW [("A", (1 : ℚ)/2)] "C" = 0 ∧
      weights_over_time_buy_and_hold ["A", "C"] (("C", 0) :: [("A", (1 : ℚ)/2)])
          [[0, 0]] =
        weights_over_time_buy_and_hold ["A", "C"] [("A", (1 : ℚ)/2)] [[0, 0]] ∧
      simulate_rebalancing ["A", "C"] (("C", 0) :: [("A", (1 : ℚ)/2)])
          [[(0, [0, 0])]] =
        simulate_rebalancing ["A", "C"] [("A", (1 : ℚ)/2)] [[(0, [0, 0])]] := by
  have h : "C" ∉ ([("A", (1 : ℚ)/2)].map Prod.fst) := by
    simp
  exact ⟨h, (C10_missing_assets [("A", 1/2)] "C" h).1,
    ((C10_missing_assets [("A", 1/2)] "C" h).2 ["A", "C"] [[0, 0]]
      [[(0, [0, 0])]]).1,
    ((C10_missing_assets [("A", 1/2)] "C" h).2 ["A", "C"] [[0, 0]]
      [[(0, [0, 0])]]).2⟩

end Portfolio
